import Mathlib

/-!
A verification development for the reliable vectored stream-I/O layer of
`src/caladan/bindings/cc/net.h` (namespace `rt`): the `TcpConn` full-transfer
loops (`ReadFull`/`WriteFull`), the vectored full-transfer dispatch
(`ReadvFull`/`WritevFull` and their `(iovec*, int)` overloads), the
scatter/gather helpers (`detail::general_scatter_gather`, `scatter_to`,
`gather_from`), and the hint handling of `UdpConn::Read`/`UdpConn::Write`.

Memory is modelled as a total map from byte addresses to byte values; the
underlying transport primitives (`__tcp_read`, `__tcp_write`, `udp_read`,
`udp_write` and the native vectored calls), which live outside this header,
are modelled by explicit oracles: a list of responses, one per primitive
call issued, consumed in order.
-/

/-- Byte-addressed memory: a total map from addresses to byte values. -/
def Mem : Type := Nat → Nat

/-- Update one byte of memory. -/
def upd (m : Mem) (a v : Nat) : Mem := fun x => if x = a then v else m x

/-- Write a list of bytes at consecutive addresses starting at `a`. -/
def writeList : Mem → Nat → List Nat → Mem
  | m, _, [] => m
  | m, a, b :: bs => writeList (upd m a b) (a + 1) bs

/-- Read `n` consecutive bytes starting at address `a`. -/
def readBytes (m : Mem) : Nat → Nat → List Nat
  | _, 0 => []
  | a, n + 1 => m a :: readBytes m (a + 1) n

/-- `memcpy(dst, src, len)` on non-overlapping regions: all source bytes are
read from the pre-state, then written at `dst`. -/
def memcpy (m : Mem) (dst src len : Nat) : Mem :=
  writeList m dst (readBytes m src len)

theorem writeList_out : ∀ (bs : List Nat) (m : Mem) (a x : Nat),
    (x < a ∨ a + bs.length ≤ x) → writeList m a bs x = m x := by
  intro bs
  induction bs with
  | nil => intro m a x _; rfl
  | cons b bs ih =>
    intro m a x hx
    simp only [writeList]
    rw [ih]
    · simp only [upd]
      rw [if_neg]
      rcases hx with h | h
      · omega
      · simp only [List.length_cons] at h; omega
    · rcases hx with h | h
      · left; omega
      · right; simp only [List.length_cons] at h; omega

theorem writeList_in : ∀ (bs : List Nat) (m : Mem) (a i : Nat),
    i < bs.length → writeList m a bs (a + i) = bs.getD i 0 := by
  intro bs
  induction bs with
  | nil => intro m a i h; simp at h
  | cons b bs ih =>
    intro m a i h
    simp only [writeList]
    match i with
    | 0 =>
      rw [writeList_out]
      · simp [upd]
      · left; omega
    | i + 1 =>
      have := ih (upd m a b) (a + 1) i (by simpa using h)
      simpa [Nat.add_assoc, Nat.add_comm 1 i] using this

theorem readBytes_length : ∀ (n : Nat) (m : Mem) (a : Nat),
    (readBytes m a n).length = n := by
  intro n
  induction n with
  | zero => intro m a; rfl
  | succ n ih => intro m a; simp [readBytes, ih]

theorem readBytes_congr : ∀ (n : Nat) (m₁ m₂ : Mem) (a b : Nat),
    (∀ i, i < n → m₁ (a + i) = m₂ (b + i)) →
    readBytes m₁ a n = readBytes m₂ b n := by
  intro n
  induction n with
  | zero => intro m₁ m₂ a b _; rfl
  | succ n ih =>
    intro m₁ m₂ a b h
    simp only [readBytes]
    refine congrArg₂ List.cons ?_ ?_
    · have := h 0 (by omega); simpa using this
    · exact ih m₁ m₂ (a + 1) (b + 1) (fun i hi => by
        have := h (i + 1) (by omega)
        simpa [Nat.add_assoc, Nat.add_comm 1 i] using this)

theorem readBytes_getD : ∀ (n : Nat) (m : Mem) (a i : Nat), i < n →
    (readBytes m a n).getD i 0 = m (a + i) := by
  intro n
  induction n with
  | zero => intro m a i h; omega
  | succ n ih =>
    intro m a i h
    match i with
    | 0 => simp [readBytes]
    | i + 1 =>
      simp only [readBytes, List.getD_cons_succ]
      rw [ih m (a + 1) i (by omega)]
      ring_nf

theorem readBytes_split : ∀ (x : Nat) (m : Mem) (a y : Nat),
    readBytes m a (x + y) = readBytes m a x ++ readBytes m (a + x) y := by
  intro x
  induction x with
  | zero => intro m a y; simp [readBytes]
  | succ x ih =>
    intro m a y
    have h1 : x + 1 + y = (x + y) + 1 := by omega
    rw [h1]
    simp only [readBytes]
    rw [ih m (a + 1) y]
    simp [Nat.add_assoc, Nat.add_comm 1 x]

theorem memcpy_out (m : Mem) (dst src len x : Nat)
    (h : x < dst ∨ dst + len ≤ x) : memcpy m dst src len x = m x := by
  unfold memcpy
  rw [writeList_out]
  rw [readBytes_length]
  exact h

theorem memcpy_in (m : Mem) (dst src len i : Nat) (h : i < len) :
    memcpy m dst src len (dst + i) = m (src + i) := by
  unfold memcpy
  rw [writeList_in]
  · exact readBytes_getD len m src i h
  · rw [readBytes_length]; exact h

/-- `struct iovec`: a (pointer, length) buffer segment. -/
structure iovec where
  iov_base : Nat
  iov_len : Nat
deriving DecidableEq

/-- Total length of a segment list, as computed by `std::accumulate` over
`iov_len` with initial value `0` (net.h:226-228, 246-248). -/
def sumLen (iov : List iovec) : Nat :=
  iov.foldl (fun s a => s + a.iov_len) 0

theorem foldl_sumLen : ∀ (iov : List iovec) (c : Nat),
    iov.foldl (fun s a => s + a.iov_len) c = c + sumLen iov := by
  intro iov
  induction iov with
  | nil => intro c; simp [sumLen]
  | cons v rest ih =>
    intro c
    simp only [List.foldl_cons, sumLen]
    rw [ih (c + v.iov_len), ih (0 + v.iov_len)]
    omega

theorem sumLen_nil : sumLen [] = 0 := rfl

theorem sumLen_cons (v : iovec) (rest : List iovec) :
    sumLen (v :: rest) = v.iov_len + sumLen rest := by
  show List.foldl (fun s a => s + a.iov_len) 0 (v :: rest) = _
  rw [List.foldl_cons, foldl_sumLen]
  omega

theorem sumLen_take_cons (v : iovec) (rest : List iovec) (i : Nat) :
    sumLen ((v :: rest).take (i + 1)) = v.iov_len + sumLen (rest.take i) := by
  simp [List.take_succ_cons, sumLen_cons]

theorem sumLen_take_get_le : ∀ (iov : List iovec) (i : Nat) (hi : i < iov.length),
    sumLen (iov.take i) + (iov.get ⟨i, hi⟩).iov_len ≤ sumLen iov := by
  intro iov
  induction iov with
  | nil => intro i hi; simp at hi
  | cons v rest ih =>
    intro i hi
    match i with
    | 0 => simp [sumLen_cons, sumLen_nil]
    | i + 1 =>
      rw [sumLen_take_cons, sumLen_cons]
      have := ih i (by simpa using hi)
      simp only [List.get_eq_getElem, List.getElem_cons_succ]
      simp only [List.get_eq_getElem] at this
      omega

/-- The bytes held by a segment list, in list order. -/
def readSegs (m : Mem) : List iovec → List Nat
  | [] => []
  | v :: rest => readBytes m v.iov_base v.iov_len ++ readSegs m rest

theorem readSegs_congr : ∀ (iov : List iovec) (m₁ m₂ : Mem),
    (∀ v ∈ iov, readBytes m₁ v.iov_base v.iov_len = readBytes m₂ v.iov_base v.iov_len) →
    readSegs m₁ iov = readSegs m₂ iov := by
  intro iov
  induction iov with
  | nil => intro m₁ m₂ _; rfl
  | cons v rest ih =>
    intro m₁ m₂ h
    simp only [readSegs]
    rw [h v (by simp), ih m₁ m₂ (fun w hw => h w (by simp [hw]))]

/-- The address ranges `[a, a+la)` and `[b, b+lb)` are disjoint. -/
def rdisj (a la b lb : Nat) : Prop := a + la ≤ b ∨ b + lb ≤ a

instance (a la b lb : Nat) : Decidable (rdisj a la b lb) := by
  unfold rdisj; infer_instance

theorem rdisj_sub {a la b lb b' lb' : Nat} (h : rdisj a la b lb)
    (h1 : b ≤ b') (h2 : b' + lb' ≤ b + lb) : rdisj a la b' lb' := by
  rcases h with h | h
  · left; omega
  · right; omega

/-- Two segments occupy disjoint address ranges. -/
def segDisj (v w : iovec) : Prop :=
  rdisj v.iov_base v.iov_len w.iov_base w.iov_len

instance (v w : iovec) : Decidable (segDisj v w) := by
  unfold segDisj; infer_instance

theorem segDisj_symm {v w : iovec} (h : segDisj v w) : segDisj w v := by
  unfold segDisj rdisj at *; omega

/-- `detail::general_scatter_gather` (net.h:19-32): walk the segment list in
order at a running offset into `buf`; in scatter mode copy
`buf[offset..offset+len)` into the segment, in gather mode copy the segment
into `buf[offset..offset+len)`.  The C++ recursion on the span's compile-time
extent becomes recursion on the segment list. -/
def general_scatter_gather (scatter : Bool) (buf : Nat) :
    Nat → List iovec → Mem → Mem
  | _, [], m => m
  | offset, v :: rest, m =>
    general_scatter_gather scatter buf (offset + v.iov_len) rest
      (if scatter then memcpy m v.iov_base (buf + offset) v.iov_len
       else memcpy m (buf + offset) v.iov_base v.iov_len)

/-- `detail::scatter_to` (net.h:34-38): scatter `buf` into the segments,
starting at offset 0 (fixed-extent spans only). -/
def scatter_to (buf : Nat) (iov : List iovec) (m : Mem) : Mem :=
  general_scatter_gather true buf 0 iov m

/-- `detail::gather_from` (net.h:40-44): gather the segments into `buf`,
starting at offset 0 (fixed-extent spans only). -/
def gather_from (buf : Nat) (iov : List iovec) (m : Mem) : Mem :=
  general_scatter_gather false buf 0 iov m

theorem gss_gather_frame : ∀ (iov : List iovec) (buf off : Nat) (m : Mem) (x : Nat),
    (x < buf + off ∨ buf + off + sumLen iov ≤ x) →
    general_scatter_gather false buf off iov m x = m x := by
  intro iov
  induction iov with
  | nil => intro buf off m x _; rfl
  | cons v rest ih =>
    intro buf off m x hx
    rw [sumLen_cons] at hx
    simp only [general_scatter_gather, Bool.false_eq_true, if_neg, ite_false]
    rw [ih buf (off + v.iov_len) _ x (by omega)]
    exact memcpy_out _ _ _ _ _ (by omega)

theorem gss_scatter_frame : ∀ (iov : List iovec) (buf off : Nat) (m : Mem) (x : Nat),
    (∀ v ∈ iov, x < v.iov_base ∨ v.iov_base + v.iov_len ≤ x) →
    general_scatter_gather true buf off iov m x = m x := by
  intro iov
  induction iov with
  | nil => intro buf off m x _; rfl
  | cons v rest ih =>
    intro buf off m x hx
    simp only [general_scatter_gather, ite_true]
    rw [ih buf (off + v.iov_len) _ x (fun w hw => hx w (by simp [hw]))]
    exact memcpy_out _ _ _ _ _ (by have := hx v (by simp); omega)

theorem gss_gather_seg : ∀ (iov : List iovec) (buf off : Nat) (m : Mem),
    (∀ v ∈ iov, rdisj v.iov_base v.iov_len (buf + off) (sumLen iov)) →
    ∀ i (hi : i < iov.length),
      readBytes (general_scatter_gather false buf off iov m)
          (buf + off + sumLen (iov.take i)) (iov.get ⟨i, hi⟩).iov_len
        = readBytes m (iov.get ⟨i, hi⟩).iov_base (iov.get ⟨i, hi⟩).iov_len := by
  intro iov
  induction iov with
  | nil => intro buf off m _ i hi; simp at hi
  | cons v rest ih =>
    intro buf off m hd i hi
    simp only [general_scatter_gather, Bool.false_eq_true, ite_false]
    match i with
    | 0 =>
      simp only [List.take_zero, sumLen_nil, Nat.add_zero, List.get_eq_getElem,
        List.getElem_cons_zero]
      refine readBytes_congr _ _ _ _ _ (fun j hj => ?_)
      rw [gss_gather_frame rest buf (off + v.iov_len) _ _ (by left; omega)]
      exact memcpy_in m (buf + off) v.iov_base v.iov_len j hj
    | i + 1 =>
      rw [sumLen_take_cons]
      have haddr : buf + off + (v.iov_len + sumLen (rest.take i)) =
          buf + (off + v.iov_len) + sumLen (rest.take i) := by omega
      rw [haddr]
      have hrest : ∀ w ∈ rest, rdisj w.iov_base w.iov_len
          (buf + (off + v.iov_len)) (sumLen rest) := by
        intro w hw
        have := hd w (by simp [hw])
        rw [sumLen_cons] at this
        exact rdisj_sub this (by omega) (by omega)
      have hi' : i < rest.length := by simpa using hi
      have := ih buf (off + v.iov_len)
        (memcpy m (buf + off) v.iov_base v.iov_len) hrest i hi'
      simp only [List.get_eq_getElem, List.getElem_cons_succ]
      simp only [List.get_eq_getElem] at this
      rw [this]
      refine readBytes_congr _ _ _ _ _ (fun j hj => ?_)
      refine memcpy_out _ _ _ _ _ ?_
      have hw := hd (rest.get ⟨i, hi'⟩) (by
        simp only [List.mem_cons]
        right
        exact List.get_mem rest i hi')
      rw [sumLen_cons] at hw
      simp only [List.get_eq_getElem] at hw
      rcases hw with h | h
      · left; omega
      · right; omega

theorem gss_scatter_seg : ∀ (iov : List iovec) (buf off : Nat) (m : Mem),
    iov.Pairwise segDisj →
    (∀ v ∈ iov, rdisj v.iov_base v.iov_len (buf + off) (sumLen iov)) →
    ∀ i (hi : i < iov.length),
      readBytes (general_scatter_gather true buf off iov m)
          (iov.get ⟨i, hi⟩).iov_base (iov.get ⟨i, hi⟩).iov_len
        = readBytes m (buf + off + sumLen (iov.take i)) (iov.get ⟨i, hi⟩).iov_len := by
  intro iov
  induction iov with
  | nil => intro buf off m _ _ i hi; simp at hi
  | cons v rest ih =>
    intro buf off m hp hd i hi
    simp only [general_scatter_gather, ite_true]
    match i with
    | 0 =>
      simp only [List.take_zero, sumLen_nil, Nat.add_zero, List.get_eq_getElem,
        List.getElem_cons_zero]
      refine readBytes_congr _ _ _ _ _ (fun j hj => ?_)
      rw [gss_scatter_frame rest buf (off + v.iov_len) _ _ (fun w hw => by
        have := (List.pairwise_cons.mp hp).1 w hw
        unfold segDisj rdisj at this
        omega)]
      exact memcpy_in m v.iov_base (buf + off) v.iov_len j hj
    | i + 1 =>
      rw [sumLen_take_cons]
      have haddr : buf + off + (v.iov_len + sumLen (rest.take i)) =
          buf + (off + v.iov_len) + sumLen (rest.take i) := by omega
      rw [haddr]
      have hrest : ∀ w ∈ rest, rdisj w.iov_base w.iov_len
          (buf + (off + v.iov_len)) (sumLen rest) := by
        intro w hw
        have := hd w (by simp [hw])
        rw [sumLen_cons] at this
        exact rdisj_sub this (by omega) (by omega)
      have hi' : i < rest.length := by simpa using hi
      have := ih buf (off + v.iov_len)
        (memcpy m v.iov_base (buf + off) v.iov_len)
        (List.pairwise_cons.mp hp).2 hrest i hi'
      simp only [List.get_eq_getElem, List.getElem_cons_succ]
      simp only [List.get_eq_getElem] at this
      rw [this]
      refine readBytes_congr _ _ _ _ _ (fun j hj => ?_)
      refine memcpy_out _ _ _ _ _ ?_
      have hv := hd v (by simp)
      rw [sumLen_cons] at hv
      have hle := sumLen_take_get_le rest i hi'
      simp only [List.get_eq_getElem] at hle
      rcases hv with h | h
      · right; omega
      · left; omega

theorem gss_gather_content : ∀ (iov : List iovec) (buf off : Nat) (m : Mem),
    (∀ v ∈ iov, rdisj v.iov_base v.iov_len (buf + off) (sumLen iov)) →
    readBytes (general_scatter_gather false buf off iov m) (buf + off) (sumLen iov)
      = readSegs m iov := by
  intro iov
  induction iov with
  | nil => intro buf off m _; simp [sumLen_nil, readBytes, readSegs, general_scatter_gather]
  | cons v rest ih =>
    intro buf off m hd
    rw [sumLen_cons, readBytes_split]
    simp only [general_scatter_gather, Bool.false_eq_true, ite_false, readSegs]
    refine congrArg₂ List.append ?_ ?_
    · refine Eq.trans (readBytes_congr _ _ _ _ _ (fun j hj => ?_)) rfl
      rw [gss_gather_frame rest buf (off + v.iov_len) _ _ (by left; omega)]
      exact memcpy_in m (buf + off) v.iov_base v.iov_len j hj
    · have haddr : buf + off + v.iov_len = buf + (off + v.iov_len) := by omega
      rw [haddr]
      have hrest : ∀ w ∈ rest, rdisj w.iov_base w.iov_len
          (buf + (off + v.iov_len)) (sumLen rest) := by
        intro w hw
        have := hd w (by simp [hw])
        rw [sumLen_cons] at this
        exact rdisj_sub this (by omega) (by omega)
      rw [ih buf (off + v.iov_len) _ hrest]
      refine readSegs_congr _ _ _ (fun w hw => readBytes_congr _ _ _ _ _ (fun j hj => ?_))
      refine memcpy_out _ _ _ _ _ ?_
      have := hd w (by simp [hw])
      rw [sumLen_cons] at this
      rcases this with h | h
      · left; omega
      · right; omega

theorem gss_scatter_content : ∀ (iov : List iovec) (buf off : Nat) (m : Mem),
    iov.Pairwise segDisj →
    (∀ v ∈ iov, rdisj v.iov_base v.iov_len (buf + off) (sumLen iov)) →
    readSegs (general_scatter_gather true buf off iov m) iov
      = readBytes m (buf + off) (sumLen iov) := by
  intro iov
  induction iov with
  | nil => intro buf off m _ _; simp [sumLen_nil, readBytes, readSegs, general_scatter_gather]
  | cons v rest ih =>
    intro buf off m hp hd
    rw [sumLen_cons, readBytes_split]
    simp only [general_scatter_gather, ite_true, readSegs]
    refine congrArg₂ List.append ?_ ?_
    · refine Eq.trans (readBytes_congr _ _ _ _ _ (fun j hj => ?_)) rfl
      rw [gss_scatter_frame rest buf (off + v.iov_len) _ _ (fun w hw => by
        have := (List.pairwise_cons.mp hp).1 w hw
        unfold segDisj rdisj at this
        omega)]
      exact memcpy_in m v.iov_base (buf + off) v.iov_len j hj
    · have haddr : buf + off + v.iov_len = buf + (off + v.iov_len) := by omega
      rw [haddr]
      have hrest : ∀ w ∈ rest, rdisj w.iov_base w.iov_len
          (buf + (off + v.iov_len)) (sumLen rest) := by
        intro w hw
        have := hd w (by simp [hw])
        rw [sumLen_cons] at this
        exact rdisj_sub this (by omega) (by omega)
      rw [ih buf (off + v.iov_len) _ (List.pairwise_cons.mp hp).2 hrest]
      refine readBytes_congr _ _ _ _ _ (fun j hj => ?_)
      refine memcpy_out _ _ _ _ _ ?_
      have := hd v (by simp)
      rw [sumLen_cons] at this
      rcases this with h | h
      · right; omega
      · left; omega

/-- Loop outcome of a full-transfer call.  `ok v` is the `ssize_t` value
returned; `fatal` is an `assert`/`BUG_ON` failure (the process aborts);
`diverge` marks an oracle that ran out of responses (the underlying call
would block forever), used only to keep the model total. -/
inductive Outcome where
  | ok (v : Int)
  | fatal
  | diverge
deriving DecidableEq

/-- One response of the underlying scalar `Read` primitive (`__tcp_read`,
specified only at its interface: it delivers at most the requested number of
bytes; a return of `0` signals a cleanly closed stream; a negative value an
I/O error).  `bytes bs` delivers the prefix of `bs` that fits the request
(`bytes []` is the clean end-of-stream); `err e` returns `-(e+1) < 0`. -/
inductive ReadResp where
  | bytes (bs : List Nat)
  | err (e : Nat)
deriving DecidableEq

/-- Effect of one underlying `Read(buf, len)` call answered by `r`: the
returned `ssize_t` and the updated memory. -/
def tcpRead (m : Mem) (buf len : Nat) : ReadResp → Int × Mem
  | .err e => (-((e : Int) + 1), m)
  | .bytes bs => (((bs.take len).length : Int), writeList m buf (bs.take len))

/-- The loop of `TcpConn::ReadFull` (net.h:191-201): starting at offset `n`,
repeatedly `Read(pos + n, len - n)`; a return `≤ 0` is propagated at once;
otherwise advance by the return value.  On loop exit the code asserts
`n == len` and returns `n`. -/
def readFullLoopM (buf len : Nat) : List ReadResp → Mem → Nat → Outcome × Mem
  | [], m, n =>
    if n < len then (.diverge, m)
    else if n = len then (.ok (len : Int), m) else (.fatal, m)
  | r :: rest, m, n =>
    if n < len then
      let p := tcpRead m (buf + n) (len - n) r
      if p.1 ≤ 0 then (.ok p.1, p.2)
      else readFullLoopM buf len rest p.2 (n + p.1.toNat)
    else if n = len then (.ok (len : Int), m) else (.fatal, m)

/-- `TcpConn::ReadFull(buf, len)` (net.h:191-201), with the underlying
`Read` answered by the oracle `ro`. -/
def TcpConn.ReadFull (ro : List ReadResp) (m : Mem) (buf len : Nat) :
    Outcome × Mem :=
  readFullLoopM buf len ro m 0

/-- One response of the underlying scalar `Write` primitive (`__tcp_write`):
`acc k` accepts `min k remaining` bytes; `err e` returns `-(e+1) < 0`. -/
inductive WriteResp where
  | acc (k : Nat)
  | err (e : Nat)
deriving DecidableEq

/-- The loop of `TcpConn::WriteFull` (net.h:204-216): starting at offset `n`,
repeatedly `Write(pos + n, len - n)`; a negative return is propagated at
once; `assert(ret > 0)` makes a zero return fatal; otherwise advance.  On
loop exit the code asserts `n == len` and returns `n`.  Alongside the
outcome, the bytes handed to the transport (the on-wire bytes) are
collected. -/
def writeFullLoopM (m : Mem) (buf len : Nat) :
    List WriteResp → Nat → Outcome × List Nat
  | [], n =>
    if n < len then (.diverge, [])
    else if n = len then (.ok (len : Int), []) else (.fatal, [])
  | r :: rest, n =>
    if n < len then
      match r with
      | .err e => (.ok (-((e : Int) + 1)), [])
      | .acc k =>
        let ret := min k (len - n)
        if ret = 0 then (.fatal, [])
        else
          let p := writeFullLoopM m buf len rest (n + ret)
          (p.1, readBytes m (buf + n) ret ++ p.2)
    else if n = len then (.ok (len : Int), []) else (.fatal, [])

/-- `TcpConn::WriteFull(buf, len)` (net.h:204-216), with the underlying
`Write` answered by the oracle `wo`.  Returns the outcome and the bytes
accepted by the transport, in order. -/
def TcpConn.WriteFull (wo : List WriteResp) (m : Mem) (buf len : Nat) :
    Outcome × List Nat :=
  writeFullLoopM m buf len wo 0

/-- Whether a read response yields a zero-or-negative return (clean
end-of-stream or error) on a request of nonzero length. -/
def respNonpos : ReadResp → Bool
  | .bytes bs => bs.isEmpty
  | .err _ => true

/-- The (length-independent) return value of a zero-or-negative read
response. -/
def respSentinel : ReadResp → Int
  | .bytes _ => 0
  | .err e => -((e : Int) + 1)

theorem readFullLoopM_ok (buf len : Nat) : ∀ (ro : List ReadResp) (m : Mem)
    (n : Nat) (v : Int), (readFullLoopM buf len ro m n).1 = .ok v →
    v = len ∨ (v ≤ 0 ∧ ∃ pre r post, ro = pre ++ r :: post ∧
      (∀ x ∈ pre, respNonpos x = false) ∧ respNonpos r = true ∧
      v = respSentinel r) := by
  intro ro
  induction ro with
  | nil =>
    intro m n v h
    simp only [readFullLoopM] at h
    split at h
    · simp at h
    · split at h
      · left; simp only [Prod.fst] at h; injection h with h; omega
      · simp at h
  | cons r rest ih =>
    intro m n v h
    simp only [readFullLoopM] at h
    split at h
    case isTrue hn =>
      match r with
      | .err e =>
        simp only [tcpRead] at h
        rw [if_pos (by omega)] at h
        simp only [Prod.fst] at h
        injection h with h
        right
        refine ⟨by omega, [], .err e, rest, by simp, by simp, rfl, by
          simp [respSentinel, h]⟩
      | .bytes [] =>
        simp only [tcpRead, List.take_nil] at h
        rw [if_pos (by simp)] at h
        simp only [Prod.fst] at h
        injection h with h
        have h0 : v = 0 := by simp only [List.length_nil] at h; omega
        right
        exact ⟨by omega, [], .bytes [], rest, by simp, by simp,
          by simp [respNonpos], by simp [respSentinel, h0]⟩
      | .bytes (b :: bs) =>
        obtain ⟨k, hk⟩ : ∃ k, len - n = k + 1 := ⟨len - n - 1, by omega⟩
        simp only [tcpRead, hk, List.take_succ_cons] at h
        rw [if_neg (by simp only [List.length_cons]; omega)] at h
        rcases ih _ _ _ h with h1 | ⟨h1, pre, r', post, heq, hpre, hr, hs⟩
        · left; exact h1
        · right
          refine ⟨h1, .bytes (b :: bs) :: pre, r', post, by simp [heq],
            ?_, hr, hs⟩
          intro x hx
          rcases List.mem_cons.mp hx with h2 | h2
          · subst h2; simp [respNonpos]
          · exact hpre x h2
    case isFalse hn =>
      split at h
      · left; simp only [Prod.fst] at h; injection h with h; omega
      · simp at h

theorem readFullLoopM_frame (buf len : Nat) : ∀ (ro : List ReadResp)
    (m : Mem) (n x : Nat), (x < buf ∨ buf + len ≤ x) →
    (readFullLoopM buf len ro m n).2 x = m x := by
  intro ro
  induction ro with
  | nil =>
    intro m n x _
    simp only [readFullLoopM]
    split
    · rfl
    · split
      · rfl
      · rfl
  | cons r rest ih =>
    intro m n x hx
    simp only [readFullLoopM]
    split
    case isTrue hn =>
      match r with
      | .err e =>
        simp only [tcpRead]
        rw [if_pos (by omega)]
      | .bytes bs =>
        simp only [tcpRead]
        have hlen : (bs.take (len - n)).length ≤ len - n := by
          simp
        have hout : writeList m (buf + n) (bs.take (len - n)) x = m x := by
          refine writeList_out _ _ _ _ ?_
          rcases hx with h | h
          · left; omega
          · right; omega
        split
        · exact hout
        · rw [ih _ _ _ hx, hout]
    case isFalse hn =>
      split
      · rfl
      · rfl

/-- One response of the native vectored read primitive (`__tcp_readv`):
`bytes bs` delivers the prefix of `bs` that fits the remaining request,
scattered across the current segment list (`bytes []` is the clean
end-of-stream); `err e` returns `-(e+1) < 0`. -/
inductive VecResp where
  | bytes (bs : List Nat)
  | err (e : Nat)
deriving DecidableEq

/-- Address `x` lies inside one of the segments. -/
def inSegs (iov : List iovec) (x : Nat) : Prop :=
  ∃ v ∈ iov, v.iov_base ≤ x ∧ x < v.iov_base + v.iov_len

/-- Advance a segment list past `k` consumed bytes: drop fully-consumed
segments and trim the first partially-consumed one. -/
def advanceIov : List iovec → Nat → List iovec
  | [], _ => []
  | v :: rest, k =>
    if k < v.iov_len then ⟨v.iov_base + k, v.iov_len - k⟩ :: rest
    else advanceIov rest (k - v.iov_len)

/-- Scatter a byte list across a segment list in order. -/
def scatterList : Mem → List iovec → List Nat → Mem
  | m, [], _ => m
  | m, v :: rest, bs =>
    scatterList (writeList m v.iov_base (bs.take v.iov_len)) rest
      (bs.drop v.iov_len)

/-- Modelled from the spec: the body of `TcpConn::ReadvFullRaw` (declared at
net.h:291 but defined outside this header).  Per spec section 4.2, it loops
issuing the native vector read with the current (trimmed) segment list,
advancing past consumed segments on partial completion, until the total
requested length is satisfied or a zero-or-negative condition is
propagated; it never copies through the scratch buffer. -/
def readvFullRawLoop (total : Nat) :
    List VecResp → List iovec → Mem → Nat → Outcome × Mem
  | [], _, m, n =>
    if n < total then (.diverge, m) else (.ok (total : Int), m)
  | r :: rest, iov, m, n =>
    if n < total then
      match r with
      | .err e => (.ok (-((e : Int) + 1)), m)
      | .bytes bs =>
        let bs2 := bs.take (total - n)
        if bs2.isEmpty then (.ok 0, m)
        else readvFullRawLoop total rest (advanceIov iov bs2.length)
          (scatterList m iov bs2) (n + bs2.length)
    else (.ok (total : Int), m)

/-- Modelled from the spec: `TcpConn::ReadvFullRaw` (net.h:291), the raw
vectored read path, driven by the native-vector-read oracle `vo`. -/
def TcpConn.ReadvFullRaw (vo : List VecResp) (iov : List iovec) (m : Mem) :
    Outcome × Mem :=
  readvFullRawLoop (sumLen iov) vo iov m 0

/-- Modelled from the spec: the body of `TcpConn::WritevFullRaw` (declared at
net.h:290 but defined outside this header).  Per spec sections 4.2 and 7, it
loops issuing the native vector write with the current (trimmed) segment
list; a negative return is propagated, a zero-progress iteration is a fatal
invariant violation, and the scratch buffer is never touched.  The bytes
handed to the transport are collected alongside the outcome. -/
def writevFullRawLoop (total : Nat) (m : Mem) :
    List WriteResp → List iovec → Nat → Outcome × List Nat
  | [], _, n =>
    if n < total then (.diverge, []) else (.ok (total : Int), [])
  | r :: rest, iov, n =>
    if n < total then
      match r with
      | .err e => (.ok (-((e : Int) + 1)), [])
      | .acc k =>
        let ret := min k (total - n)
        if ret = 0 then (.fatal, [])
        else
          let p := writevFullRawLoop total m rest (advanceIov iov ret) (n + ret)
          (p.1, (readSegs m iov).take ret ++ p.2)
    else (.ok (total : Int), [])

/-- Modelled from the spec: `TcpConn::WritevFullRaw` (net.h:290), the raw
vectored write path, driven by the native-vector-write oracle `vo`. -/
def TcpConn.WritevFullRaw (vo : List WriteResp) (iov : List iovec) (m : Mem) :
    Outcome × List Nat :=
  writevFullRawLoop (sumLen iov) m vo iov 0

/-- The compile-time extent of the `std::span<const iovec, Extent>` argument:
either a call-site-known segment count or `std::dynamic_extent`. -/
inductive SpanExtent where
  | fixed
  | dynamic
deriving DecidableEq

/-- `TcpConn::kIOVCopyThresh` (net.h:282): capacity of the scratch buffer
`buf_`. -/
def TcpConn.kIOVCopyThresh : Nat := 128

/-- `TcpConn::ReadvFull(std::span<const iovec, Extent>)` (net.h:219-236).
`bufBase` is the address of the connection's scratch buffer `buf_`; `ro` and
`vo` answer the scalar-read and native-vector-read primitives.  With a fixed
extent: a one-entry span delegates to `ReadFull` on that segment; otherwise,
if the accumulated total length is within `kIOVCopyThresh`, one `ReadFull`
into `buf_` is followed unconditionally by `detail::scatter_to`; otherwise
the raw path runs.  With a dynamic extent the raw path runs directly. -/
def TcpConn.ReadvFull (bufBase : Nat) (ext : SpanExtent) (iov : List iovec)
    (ro : List ReadResp) (vo : List VecResp) (m : Mem) : Outcome × Mem :=
  match ext with
  | .dynamic => TcpConn.ReadvFullRaw vo iov m
  | .fixed =>
    match iov with
    | [v] => TcpConn.ReadFull ro m v.iov_base v.iov_len
    | _ =>
      if sumLen iov ≤ TcpConn.kIOVCopyThresh then
        let p := TcpConn.ReadFull ro m bufBase (sumLen iov)
        (p.1, scatter_to bufBase iov p.2)
      else TcpConn.ReadvFullRaw vo iov m

/-- `TcpConn::WritevFull(std::span<const iovec, Extent>)` (net.h:239-255).
Mirror of `ReadvFull`: the small-total path gathers the segments into `buf_`
and then issues one `WriteFull` of the scratch buffer.  Returns the outcome,
the on-wire bytes, and the final memory. -/
def TcpConn.WritevFull (bufBase : Nat) (ext : SpanExtent) (iov : List iovec)
    (wo : List WriteResp) (vo : List WriteResp) (m : Mem) :
    Outcome × List Nat × Mem :=
  match ext with
  | .dynamic =>
    let p := TcpConn.WritevFullRaw vo iov m
    (p.1, p.2, m)
  | .fixed =>
    match iov with
    | [v] =>
      let p := TcpConn.WriteFull wo m v.iov_base v.iov_len
      (p.1, p.2, m)
    | _ =>
      if sumLen iov ≤ TcpConn.kIOVCopyThresh then
        let m2 := gather_from bufBase iov m
        let p := TcpConn.WriteFull wo m2 bufBase (sumLen iov)
        (p.1, p.2, m2)
      else
        let p := TcpConn.WritevFullRaw vo iov m
        (p.1, p.2, m)

/-- The `(iovec*, int)` overload of `ReadvFull` (net.h:258-261): it wraps the
pointer and runtime count in `std::span{iov, (size_t)iovcnt}`, whose class
template argument deduction yields `std::span<const iovec>` with
`std::dynamic_extent`, and calls the span template on it. -/
def TcpConn.ReadvFullPtr (bufBase : Nat) (iov : List iovec)
    (ro : List ReadResp) (vo : List VecResp) (m : Mem) : Outcome × Mem :=
  TcpConn.ReadvFull bufBase .dynamic iov ro vo m

/-- The `(iovec*, int)` overload of `WritevFull` (net.h:264-267): likewise a
dynamic-extent span call. -/
def TcpConn.WritevFullPtr (bufBase : Nat) (iov : List iovec)
    (wo : List WriteResp) (vo : List WriteResp) (m : Mem) :
    Outcome × List Nat × Mem :=
  TcpConn.WritevFull bufBase .dynamic iov wo vo m

/-- `UdpConn::Read` (net.h:107-110): `BUG_ON(nt || poll)` aborts before the
datagram primitive `udp_read` (whose return the oracle `r` supplies) is
reached. -/
def UdpConn.Read (r : Int) (nt poll : Bool) : Outcome :=
  if nt || poll then .fatal else .ok r

/-- `UdpConn::Write` (net.h:113-116): `BUG_ON(nt || poll)` aborts before the
datagram primitive `udp_write` (whose return the oracle `r` supplies) is
reached. -/
def UdpConn.Write (r : Int) (nt poll : Bool) : Outcome :=
  if nt || poll then .fatal else .ok r

/-- `TcpConn::Read` (net.h:171-173): both hints are forwarded to
`__tcp_read`, modelled as an oracle over the hint pair. -/
def TcpConn.Read (tcp_read : Bool → Bool → Int) (nt poll : Bool) : Outcome :=
  .ok (tcp_read nt poll)

/-- `TcpConn::Write` (net.h:175-178): both hints are forwarded to
`__tcp_write`, modelled as an oracle over the hint pair. -/
def TcpConn.Write (tcp_write : Bool → Bool → Int) (nt poll : Bool) : Outcome :=
  .ok (tcp_write nt poll)

theorem advanceIov_in : ∀ (iov : List iovec) (k x : Nat),
    inSegs (advanceIov iov k) x → inSegs iov x := by
  intro iov
  induction iov with
  | nil => intro k x h; simpa [advanceIov] using h
  | cons v rest ih =>
    intro k x h
    simp only [advanceIov] at h
    split at h
    · rcases h with ⟨w, hw, h1, h2⟩
      rcases List.mem_cons.mp hw with h3 | h3
      · subst h3
        exact ⟨v, by simp, by simp at h1 h2; omega, by simp at h1 h2; omega⟩
      · exact ⟨w, by simp [h3], h1, h2⟩
    · rcases ih (k - v.iov_len) x h with ⟨w, hw, h1, h2⟩
      exact ⟨w, by simp [hw], h1, h2⟩

theorem scatterList_frame : ∀ (iov : List iovec) (bs : List Nat) (m : Mem)
    (x : Nat), ¬ inSegs iov x → scatterList m iov bs x = m x := by
  intro iov
  induction iov with
  | nil => intro bs m x _; rfl
  | cons v rest ih =>
    intro bs m x hx
    simp only [scatterList]
    rw [ih _ _ _ (fun ⟨w, hw, h1, h2⟩ => hx ⟨w, by simp [hw], h1, h2⟩)]
    refine writeList_out _ _ _ _ ?_
    have hlen : (bs.take v.iov_len).length ≤ v.iov_len := by simp
    by_cases h1 : x < v.iov_base
    · left; exact h1
    · right
      have : ¬(v.iov_base ≤ x ∧ x < v.iov_base + v.iov_len) :=
        fun hc => hx ⟨v, by simp, hc.1, hc.2⟩
      omega

theorem readvFullRawLoop_frame (total : Nat) : ∀ (vo : List VecResp)
    (iov : List iovec) (m : Mem) (n x : Nat), ¬ inSegs iov x →
    (readvFullRawLoop total vo iov m n).2 x = m x := by
  intro vo
  induction vo with
  | nil =>
    intro iov m n x _
    simp only [readvFullRawLoop]
    split
    · rfl
    · rfl
  | cons r rest ih =>
    intro iov m n x hx
    simp only [readvFullRawLoop]
    split
    case isTrue hn =>
      match r with
      | .err e => rfl
      | .bytes bs =>
        simp only
        split
        · rfl
        · rw [ih _ _ _ _ (fun hc => hx (advanceIov_in _ _ _ hc))]
          exact scatterList_frame _ _ _ _ hx
    case isFalse hn => rfl

/-- C1: `TcpConn::ReadFull` either returns exactly the requested length (on
success) or the first zero-or-negative value returned by the underlying
`Read` — every response consumed before it yielded a positive return — and
that sentinel is propagated unchanged; it never returns a positive value
strictly less than the requested length. -/
theorem readFull_exact_or_sentinel (ro : List ReadResp) (m : Mem)
    (buf len : Nat) (v : Int)
    (h : (TcpConn.ReadFull ro m buf len).1 = .ok v) :
    (v = len ∨ (v ≤ 0 ∧ ∃ pre r post, ro = pre ++ r :: post ∧
      (∀ x ∈ pre, respNonpos x = false) ∧ respNonpos r = true ∧
      v = respSentinel r))
    ∧ ¬(0 < v ∧ v < (len : Int)) := by
  have hmain := readFullLoopM_ok buf len ro m 0 v h
  refine ⟨hmain, ?_⟩
  rintro ⟨h1, h2⟩
  rcases hmain with h3 | ⟨h3, _⟩
  · omega
  · omega

theorem readFull_exact_or_sentinel_witness :
    (TcpConn.ReadFull [ReadResp.bytes [1, 2], ReadResp.err 4]
        (fun _ => 0) 10 5).1 = .ok (-5)
    ∧ (((-5 : Int) = (5 : Nat) ∨ ((-5 : Int) ≤ 0 ∧ ∃ pre r post,
          [ReadResp.bytes [1, 2], ReadResp.err 4] = pre ++ r :: post ∧
          (∀ x ∈ pre, respNonpos x = false) ∧ respNonpos r = true ∧
          (-5 : Int) = respSentinel r))
        ∧ ¬(0 < (-5 : Int) ∧ (-5 : Int) < ((5 : Nat) : Int))) :=
  ⟨by decide, readFull_exact_or_sentinel
    [ReadResp.bytes [1, 2], ReadResp.err 4] (fun _ => 0) 10 5 (-5)
    (by decide)⟩

/-- C2 (amended): with a compile-time fixed extent, a one-entry vectored
call delegates directly to the scalar full-transfer primitive on that
segment's pointer and length — no scratch-buffer copy, no threshold check —
and its result is identical to the equivalent scalar call.  (The
`(iovec*, int)` overloads construct dynamic-extent spans and do not take
this path; see the counterexample.) -/
theorem vectored_single_segment_fast_path (bufBase : Nat) (v : iovec)
    (ro : List ReadResp) (vo : List VecResp) (wo wvo : List WriteResp)
    (m : Mem) :
    TcpConn.ReadvFull bufBase .fixed [v] ro vo m
      = TcpConn.ReadFull ro m v.iov_base v.iov_len
    ∧ TcpConn.WritevFull bufBase .fixed [v] wo wvo m
      = ((TcpConn.WriteFull wo m v.iov_base v.iov_len).1,
         (TcpConn.WriteFull wo m v.iov_base v.iov_len).2, m) :=
  ⟨rfl, rfl⟩

/-- C2 counterexample: the `(iovec*, int)` overload of `ReadvFull`, called
with a one-entry list, does not produce the scalar `ReadFull` result: the
dynamic-extent span sends it down the raw vectored path, which consumes the
native-vector oracle (empty here, so the call blocks) while the scalar call
succeeds. -/
theorem readvFullPtr_single_segment_counterexample :
    (TcpConn.ReadvFullPtr 1000 [⟨0, 1⟩] [ReadResp.bytes [7]] []
        (fun _ => 0)).1
      ≠ (TcpConn.ReadFull [ReadResp.bytes [7]] (fun _ => 0) 0 1).1 := by
  decide

/-- C3: in any `TcpConn::WriteFull` iteration with a nonzero remaining
length, a negative return from the underlying `Write` terminates the loop
and is propagated unchanged, while a return of exactly 0 trips
`assert(ret > 0)` — a fatal abort, not a recoverable error and not an
infinite loop. -/
theorem writeFull_error_and_zero_progress (m : Mem) (buf len n e : Nat)
    (rest : List WriteResp) (hn : n < len) :
    writeFullLoopM m buf len (WriteResp.err e :: rest) n
      = (.ok (-((e : Int) + 1)), [])
    ∧ writeFullLoopM m buf len (WriteResp.acc 0 :: rest) n = (.fatal, []) := by
  constructor
  · simp [writeFullLoopM, hn]
  · simp [writeFullLoopM, hn]

theorem writeFull_error_and_zero_progress_witness :
    0 < 4
    ∧ (writeFullLoopM (fun _ => 0) 7 4 [WriteResp.err 2] 0
        = (.ok (-((2 : Nat) + 1 : Int)), [])
      ∧ writeFullLoopM (fun _ => 0) 7 4 [WriteResp.acc 0] 0 = (.fatal, [])) :=
  ⟨by decide, writeFull_error_and_zero_progress (fun _ => 0) 7 4 0 2 []
    (by decide)⟩

/-- C9: `ReadFull` and `WriteFull` with length 0 return 0 at once, for every
oracle (so no underlying call is issued — even the empty oracle, on which
any call would block, yields the same result) and with memory untouched;
and this 0 coincides with the end-of-stream sentinel a clean close produces
on any length, so a zero-length success is indistinguishable from
end-of-stream by return value alone. -/
theorem zero_length_full_transfer :
    (∀ (ro : List ReadResp) (m : Mem) (buf : Nat),
        TcpConn.ReadFull ro m buf 0 = (.ok 0, m))
    ∧ (∀ (wo : List WriteResp) (m : Mem) (buf : Nat),
        TcpConn.WriteFull wo m buf 0 = (.ok 0, []))
    ∧ (∀ (rest : List ReadResp) (m : Mem) (buf len : Nat),
        TcpConn.ReadFull (ReadResp.bytes [] :: rest) m buf len
          = (.ok 0, m)) := by
  refine ⟨?_, ?_, ?_⟩
  · intro ro m buf
    cases ro <;> simp [TcpConn.ReadFull, readFullLoopM]
  · intro wo m buf
    cases wo <;> simp [TcpConn.WriteFull, writeFullLoopM]
  · intro rest m buf len
    simp only [TcpConn.ReadFull, readFullLoopM]
    split
    case isTrue hlt =>
      simp [tcpRead, writeList]
    case isFalse hlt =>
      have h0 : len = 0 := by omega
      subst h0
      simp

/-- C10: with either routing hint set, `UdpConn::Read` and `UdpConn::Write`
hit `BUG_ON(nt || poll)` — a fatal abort — before the datagram primitive is
reached; `TcpConn::Read`/`TcpConn::Write` instead forward both hints to the
underlying stream primitive. -/
theorem udp_hint_bug_on (r w : Int) (f g : Bool → Bool → Int)
    (nt poll : Bool) (h : (nt || poll) = true) :
    UdpConn.Read r nt poll = .fatal ∧ UdpConn.Write w nt poll = .fatal
    ∧ TcpConn.Read f nt poll = .ok (f nt poll)
    ∧ TcpConn.Write g nt poll = .ok (g nt poll) := by
  refine ⟨?_, ?_, rfl, rfl⟩
  · simp [UdpConn.Read, h]
  · simp [UdpConn.Write, h]

theorem udp_hint_bug_on_witness :
    (true || false) = true
    ∧ (UdpConn.Read 3 true false = .fatal
      ∧ UdpConn.Write 4 true false = .fatal
      ∧ TcpConn.Read (fun _ _ => 9) true false = .ok 9
      ∧ TcpConn.Write (fun _ _ => 8) true false = .ok 8) :=
  ⟨rfl, udp_hint_bug_on 3 4 (fun _ _ => 9) (fun _ _ => 8) true false rfl⟩

/-- C4: on the small-total path (fixed extent, at least two segments, total
within the 128-byte scratch capacity), `ReadvFull` performs one scalar
`ReadFull` of the total length into the scratch buffer and then copies, for
every index `i`, the scratch sub-range starting at the cumulative length of
all prior segments into segment `i` (segments pairwise disjoint and disjoint
from the private scratch buffer). -/
theorem readvFull_small_total_scatter (bufBase : Nat) (iov : List iovec)
    (ro : List ReadResp) (vo : List VecResp) (m : Mem)
    (h2 : 2 ≤ iov.length) (hle : sumLen iov ≤ TcpConn.kIOVCopyThresh)
    (hp : iov.Pairwise segDisj)
    (hb : ∀ v ∈ iov, rdisj v.iov_base v.iov_len bufBase
      TcpConn.kIOVCopyThresh) :
    TcpConn.ReadvFull bufBase .fixed iov ro vo m
      = ((TcpConn.ReadFull ro m bufBase (sumLen iov)).1,
         scatter_to bufBase iov (TcpConn.ReadFull ro m bufBase (sumLen iov)).2)
    ∧ ∀ i (hi : i < iov.length),
        readBytes (TcpConn.ReadvFull bufBase .fixed iov ro vo m).2
            (iov.get ⟨i, hi⟩).iov_base (iov.get ⟨i, hi⟩).iov_len
          = readBytes (TcpConn.ReadFull ro m bufBase (sumLen iov)).2
            (bufBase + sumLen (iov.take i)) (iov.get ⟨i, hi⟩).iov_len := by
  rcases iov with _ | ⟨a, _ | ⟨b, r2⟩⟩
  · simp at h2
  · simp at h2
  have hred : TcpConn.ReadvFull bufBase .fixed (a :: b :: r2) ro vo m
      = ((TcpConn.ReadFull ro m bufBase (sumLen (a :: b :: r2))).1,
         scatter_to bufBase (a :: b :: r2)
           (TcpConn.ReadFull ro m bufBase (sumLen (a :: b :: r2))).2) := by
    simp only [TcpConn.ReadvFull]
    rw [if_pos hle]
  refine ⟨hred, ?_⟩
  intro i hi
  rw [hred]
  simp only [scatter_to]
  have hb0 : ∀ v ∈ a :: b :: r2, rdisj v.iov_base v.iov_len (bufBase + 0)
      (sumLen (a :: b :: r2)) :=
    fun v hv => rdisj_sub (hb v hv) (by omega) (by omega)
  have := gss_scatter_seg (a :: b :: r2) bufBase 0
    (TcpConn.ReadFull ro m bufBase (sumLen (a :: b :: r2))).2 hp hb0 i hi
  simpa using this

theorem readvFull_small_total_scatter_witness :
    (2 ≤ ([⟨0, 1⟩, ⟨3, 2⟩] : List iovec).length
      ∧ sumLen [⟨0, 1⟩, ⟨3, 2⟩] ≤ TcpConn.kIOVCopyThresh
      ∧ ([⟨0, 1⟩, ⟨3, 2⟩] : List iovec).Pairwise segDisj
      ∧ ∀ v ∈ ([⟨0, 1⟩, ⟨3, 2⟩] : List iovec),
          rdisj v.iov_base v.iov_len 500 TcpConn.kIOVCopyThresh)
    ∧ (TcpConn.ReadvFull 500 .fixed [⟨0, 1⟩, ⟨3, 2⟩]
          [ReadResp.bytes [7, 8, 9]] [] (fun _ => 0)
        = ((TcpConn.ReadFull [ReadResp.bytes [7, 8, 9]] (fun _ => 0) 500
              (sumLen [⟨0, 1⟩, ⟨3, 2⟩])).1,
           scatter_to 500 [⟨0, 1⟩, ⟨3, 2⟩]
             (TcpConn.ReadFull [ReadResp.bytes [7, 8, 9]] (fun _ => 0) 500
               (sumLen [⟨0, 1⟩, ⟨3, 2⟩])).2)
      ∧ ∀ i (hi : i < ([⟨0, 1⟩, ⟨3, 2⟩] : List iovec).length),
          readBytes (TcpConn.ReadvFull 500 .fixed [⟨0, 1⟩, ⟨3, 2⟩]
              [ReadResp.bytes [7, 8, 9]] [] (fun _ => 0)).2
              (([⟨0, 1⟩, ⟨3, 2⟩] : List iovec).get ⟨i, hi⟩).iov_base
              (([⟨0, 1⟩, ⟨3, 2⟩] : List iovec).get ⟨i, hi⟩).iov_len
            = readBytes (TcpConn.ReadFull [ReadResp.bytes [7, 8, 9]]
                (fun _ => 0) 500 (sumLen [⟨0, 1⟩, ⟨3, 2⟩])).2
              (500 + sumLen (([⟨0, 1⟩, ⟨3, 2⟩] : List iovec).take i))
              (([⟨0, 1⟩, ⟨3, 2⟩] : List iovec).get ⟨i, hi⟩).iov_len) :=
  ⟨⟨by decide, by decide, by decide, by decide⟩,
    readvFull_small_total_scatter 500 [⟨0, 1⟩, ⟨3, 2⟩]
      [ReadResp.bytes [7, 8, 9]] [] (fun _ => 0)
      (by decide) (by decide) (by decide) (by decide)⟩

/-- C5: on the small-total path (fixed extent, at least two segments, total
within the 128-byte scratch capacity), `WritevFull` first gathers the
segments into the scratch buffer in list order at cumulative offsets — the
exact inverse of the read-side scatter — and then performs one scalar
`WriteFull` of the scratch buffer with the total length, returning its
result. -/
theorem writevFull_small_total_gather (bufBase : Nat) (iov : List iovec)
    (wo vo : List WriteResp) (m : Mem)
    (h2 : 2 ≤ iov.length) (hle : sumLen iov ≤ TcpConn.kIOVCopyThresh)
    (hb : ∀ v ∈ iov, rdisj v.iov_base v.iov_len bufBase
      TcpConn.kIOVCopyThresh) :
    TcpConn.WritevFull bufBase .fixed iov wo vo m
      = ((TcpConn.WriteFull wo (gather_from bufBase iov m) bufBase
            (sumLen iov)).1,
         (TcpConn.WriteFull wo (gather_from bufBase iov m) bufBase
            (sumLen iov)).2,
         gather_from bufBase iov m)
    ∧ ∀ i (hi : i < iov.length),
        readBytes (gather_from bufBase iov m)
            (bufBase + sumLen (iov.take i)) (iov.get ⟨i, hi⟩).iov_len
          = readBytes m (iov.get ⟨i, hi⟩).iov_base
            (iov.get ⟨i, hi⟩).iov_len := by
  rcases iov with _ | ⟨a, _ | ⟨b, r2⟩⟩
  · simp at h2
  · simp at h2
  constructor
  · simp only [TcpConn.WritevFull]
    rw [if_pos hle]
  · intro i hi
    simp only [gather_from]
    have hb0 : ∀ v ∈ a :: b :: r2, rdisj v.iov_base v.iov_len (bufBase + 0)
        (sumLen (a :: b :: r2)) :=
      fun v hv => rdisj_sub (hb v hv) (by omega) (by omega)
    have := gss_gather_seg (a :: b :: r2) bufBase 0 m hb0 i hi
    simpa using this

theorem writevFull_small_total_gather_witness :
    (2 ≤ ([⟨0, 2⟩, ⟨4, 1⟩] : List iovec).length
      ∧ sumLen [⟨0, 2⟩, ⟨4, 1⟩] ≤ TcpConn.kIOVCopyThresh
      ∧ ∀ v ∈ ([⟨0, 2⟩, ⟨4, 1⟩] : List iovec),
          rdisj v.iov_base v.iov_len 600 TcpConn.kIOVCopyThresh)
    ∧ (TcpConn.WritevFull 600 .fixed [⟨0, 2⟩, ⟨4, 1⟩] [WriteResp.acc 3] []
          (fun a => a)
        = ((TcpConn.WriteFull [WriteResp.acc 3]
              (gather_from 600 [⟨0, 2⟩, ⟨4, 1⟩] (fun a => a)) 600
              (sumLen [⟨0, 2⟩, ⟨4, 1⟩])).1,
           (TcpConn.WriteFull [WriteResp.acc 3]
              (gather_from 600 [⟨0, 2⟩, ⟨4, 1⟩] (fun a => a)) 600
              (sumLen [⟨0, 2⟩, ⟨4, 1⟩])).2,
           gather_from 600 [⟨0, 2⟩, ⟨4, 1⟩] (fun a => a))
      ∧ ∀ i (hi : i < ([⟨0, 2⟩, ⟨4, 1⟩] : List iovec).length),
          readBytes (gather_from 600 [⟨0, 2⟩, ⟨4, 1⟩] (fun a => a))
              (600 + sumLen (([⟨0, 2⟩, ⟨4, 1⟩] : List iovec).take i))
              (([⟨0, 2⟩, ⟨4, 1⟩] : List iovec).get ⟨i, hi⟩).iov_len
            = readBytes (fun a => a)
              (([⟨0, 2⟩, ⟨4, 1⟩] : List iovec).get ⟨i, hi⟩).iov_base
              (([⟨0, 2⟩, ⟨4, 1⟩] : List iovec).get ⟨i, hi⟩).iov_len) :=
  ⟨⟨by decide, by decide, by decide⟩,
    writevFull_small_total_gather 600 [⟨0, 2⟩, ⟨4, 1⟩] [WriteResp.acc 3] []
      (fun a => a) (by decide) (by decide) (by decide)⟩

/-- C6: gathering source segments into the scratch buffer and then
scattering that buffer into destination segments of the same total length
(both within the threshold, segments disjoint from the scratch buffer,
destinations pairwise disjoint) reproduces the original byte sequence
exactly, independent of how the length is partitioned; moreover the gather
writes only the `sum(len_i)` scratch bytes and the scatter writes only the
destination segments, each visiting segments in list order. -/
theorem gather_scatter_roundtrip (buf : Nat) (src dst : List iovec) (m : Mem)
    (hlen : sumLen dst = sumLen src)
    (hth : sumLen src ≤ TcpConn.kIOVCopyThresh)
    (hsrc : ∀ v ∈ src, rdisj v.iov_base v.iov_len buf TcpConn.kIOVCopyThresh)
    (hdst : ∀ v ∈ dst, rdisj v.iov_base v.iov_len buf TcpConn.kIOVCopyThresh)
    (hp : dst.Pairwise segDisj) :
    readSegs (scatter_to buf dst (gather_from buf src m)) dst = readSegs m src
    ∧ (∀ x, x < buf ∨ buf + sumLen src ≤ x → gather_from buf src m x = m x)
    ∧ (∀ (m2 : Mem) (x : Nat),
        (∀ v ∈ dst, x < v.iov_base ∨ v.iov_base + v.iov_len ≤ x) →
        scatter_to buf dst m2 x = m2 x) := by
  refine ⟨?_, ?_, ?_⟩
  · simp only [scatter_to, gather_from]
    rw [gss_scatter_content dst buf 0 _ hp
      (fun v hv => rdisj_sub (hdst v hv) (by omega) (by omega))]
    rw [hlen]
    exact gss_gather_content src buf 0 m
      (fun v hv => rdisj_sub (hsrc v hv) (by omega) (by omega))
  · intro x hx
    simp only [gather_from]
    exact gss_gather_frame src buf 0 m x (by omega)
  · intro m2 x hx
    simp only [scatter_to]
    exact gss_scatter_frame dst buf 0 m2 x hx

theorem gather_scatter_roundtrip_witness :
    (sumLen [⟨10, 1⟩, ⟨20, 2⟩] = sumLen [⟨0, 2⟩, ⟨5, 1⟩]
      ∧ sumLen [⟨0, 2⟩, ⟨5, 1⟩] ≤ TcpConn.kIOVCopyThresh
      ∧ (∀ v ∈ ([⟨0, 2⟩, ⟨5, 1⟩] : List iovec),
          rdisj v.iov_base v.iov_len 100 TcpConn.kIOVCopyThresh)
      ∧ (∀ v ∈ ([⟨10, 1⟩, ⟨20, 2⟩] : List iovec),
          rdisj v.iov_base v.iov_len 100 TcpConn.kIOVCopyThresh)
      ∧ ([⟨10, 1⟩, ⟨20, 2⟩] : List iovec).Pairwise segDisj)
    ∧ (readSegs (scatter_to 100 [⟨10, 1⟩, ⟨20, 2⟩]
          (gather_from 100 [⟨0, 2⟩, ⟨5, 1⟩] (fun a => a))) [⟨10, 1⟩, ⟨20, 2⟩]
        = readSegs (fun a => a) [⟨0, 2⟩, ⟨5, 1⟩]
      ∧ (∀ x, x < 100 ∨ 100 + sumLen [⟨0, 2⟩, ⟨5, 1⟩] ≤ x →
          gather_from 100 [⟨0, 2⟩, ⟨5, 1⟩] (fun a => a) x = (fun a => a) x)
      ∧ (∀ (m2 : Mem) (x : Nat),
          (∀ v ∈ ([⟨10, 1⟩, ⟨20, 2⟩] : List iovec),
            x < v.iov_base ∨ v.iov_base + v.iov_len ≤ x) →
          scatter_to 100 [⟨10, 1⟩, ⟨20, 2⟩] m2 x = m2 x)) :=
  ⟨⟨by decide, by decide, by decide, by decide, by decide⟩,
    gather_scatter_roundtrip 100 [⟨0, 2⟩, ⟨5, 1⟩] [⟨10, 1⟩, ⟨20, 2⟩]
      (fun a => a) (by decide) (by decide) (by decide) (by decide)
      (by decide)⟩

/-- C8: on the small-total path of `ReadvFull`, the scatter into the
caller's segments runs unconditionally after the scalar `ReadFull` — even
when that call returned a zero-or-negative sentinel — so on end-of-stream
or error the caller's segments are still overwritten from the (stale or
partial) scratch buffer while the sentinel is returned: the operation is
not atomic with respect to the caller's memory on failure. -/
theorem readvFull_scatter_unconditional (bufBase : Nat) (iov : List iovec)
    (ro : List ReadResp) (vo : List VecResp) (m : Mem) (v : Int)
    (h2 : 2 ≤ iov.length) (hle : sumLen iov ≤ TcpConn.kIOVCopyThresh)
    (hv : (TcpConn.ReadFull ro m bufBase (sumLen iov)).1 = .ok v)
    (_hneg : v ≤ 0) :
    (TcpConn.ReadvFull bufBase .fixed iov ro vo m).1 = .ok v
    ∧ (TcpConn.ReadvFull bufBase .fixed iov ro vo m).2
        = scatter_to bufBase iov
          (TcpConn.ReadFull ro m bufBase (sumLen iov)).2 := by
  rcases iov with _ | ⟨a, _ | ⟨b, r2⟩⟩
  · simp at h2
  · simp at h2
  have hred : TcpConn.ReadvFull bufBase .fixed (a :: b :: r2) ro vo m
      = ((TcpConn.ReadFull ro m bufBase (sumLen (a :: b :: r2))).1,
         scatter_to bufBase (a :: b :: r2)
           (TcpConn.ReadFull ro m bufBase (sumLen (a :: b :: r2))).2) := by
    simp only [TcpConn.ReadvFull]
    rw [if_pos hle]
  rw [hred, hv]
  exact ⟨rfl, rfl⟩

theorem readvFull_scatter_unconditional_witness :
    (2 ≤ ([⟨0, 1⟩, ⟨1, 1⟩] : List iovec).length
      ∧ sumLen [⟨0, 1⟩, ⟨1, 1⟩] ≤ TcpConn.kIOVCopyThresh
      ∧ (TcpConn.ReadFull [ReadResp.err 0] (fun a => a) 10
          (sumLen [⟨0, 1⟩, ⟨1, 1⟩])).1 = .ok (-1)
      ∧ (-1 : Int) ≤ 0)
    ∧ ((TcpConn.ReadvFull 10 .fixed [⟨0, 1⟩, ⟨1, 1⟩] [ReadResp.err 0] []
          (fun a => a)).1 = .ok (-1)
      ∧ (TcpConn.ReadvFull 10 .fixed [⟨0, 1⟩, ⟨1, 1⟩] [ReadResp.err 0] []
          (fun a => a)).2
        = scatter_to 10 [⟨0, 1⟩, ⟨1, 1⟩]
          (TcpConn.ReadFull [ReadResp.err 0] (fun a => a) 10
            (sumLen [⟨0, 1⟩, ⟨1, 1⟩])).2) :=
  ⟨⟨by decide, by decide, by decide, by decide⟩,
    readvFull_scatter_unconditional 10 [⟨0, 1⟩, ⟨1, 1⟩] [ReadResp.err 0] []
      (fun a => a) (-1) (by decide) (by decide) (by decide) (by decide)⟩

/-- C7: the connection's scratch buffer `buf_` is written only on the
small-total path: on the single-segment fast path, on the raw path taken
when the total exceeds `kIOVCopyThresh`, and on every dynamic-extent call,
the scratch bytes are left unchanged (for reads) and memory is untouched
altogether (for writes), given that the caller's segments are disjoint from
the private scratch buffer. -/
theorem scratch_buffer_frame (bufBase : Nat) (iov : List iovec)
    (ro : List ReadResp) (vo : List VecResp) (wo wvo : List WriteResp)
    (m : Mem)
    (hb : ∀ v ∈ iov, rdisj v.iov_base v.iov_len bufBase
      TcpConn.kIOVCopyThresh) :
    (∀ x, bufBase ≤ x → x < bufBase + TcpConn.kIOVCopyThresh →
      ((iov.length = 1 ∨ TcpConn.kIOVCopyThresh < sumLen iov →
          (TcpConn.ReadvFull bufBase .fixed iov ro vo m).2 x = m x)
        ∧ (TcpConn.ReadvFull bufBase .dynamic iov ro vo m).2 x = m x))
    ∧ ((iov.length = 1 ∨ TcpConn.kIOVCopyThresh < sumLen iov →
          (TcpConn.WritevFull bufBase .fixed iov wo wvo m).2.2 = m)
        ∧ (TcpConn.WritevFull bufBase .dynamic iov wo wvo m).2.2 = m) := by
  have hnot : ∀ x, bufBase ≤ x → x < bufBase + TcpConn.kIOVCopyThresh →
      ¬ inSegs iov x := by
    rintro x hx1 hx2 ⟨w, hw, h1, h2⟩
    have := hb w hw
    unfold rdisj at this
    omega
  refine ⟨?_, ?_, ?_⟩
  · intro x hx1 hx2
    constructor
    · intro hpath
      rcases iov with _ | ⟨a, _ | ⟨b, r2⟩⟩
      · rcases hpath with h | h
        · simp at h
        · simp [sumLen_nil, TcpConn.kIOVCopyThresh] at h
      · show (TcpConn.ReadFull ro m a.iov_base a.iov_len).2 x = m x
        refine readFullLoopM_frame _ _ _ _ _ _ ?_
        have := hb a (by simp)
        unfold rdisj at this
        omega
      · have hgt : ¬ sumLen (a :: b :: r2) ≤ TcpConn.kIOVCopyThresh := by
          rcases hpath with h | h
          · simp at h
          · omega
        simp only [TcpConn.ReadvFull]
        rw [if_neg hgt]
        exact readvFullRawLoop_frame _ _ _ _ _ _ (hnot x hx1 hx2)
    · exact readvFullRawLoop_frame _ _ _ _ _ _ (hnot x hx1 hx2)
  · intro hpath
    rcases iov with _ | ⟨a, _ | ⟨b, r2⟩⟩
    · rcases hpath with h | h
      · simp at h
      · simp [sumLen_nil, TcpConn.kIOVCopyThresh] at h
    · rfl
    · have hgt : ¬ sumLen (a :: b :: r2) ≤ TcpConn.kIOVCopyThresh := by
        rcases hpath with h | h
        · simp at h
        · omega
      simp only [TcpConn.WritevFull]
      rw [if_neg hgt]
  · rfl

theorem scratch_buffer_frame_witness :
    (∀ v ∈ ([⟨200, 300⟩] : List iovec),
        rdisj v.iov_base v.iov_len 0 TcpConn.kIOVCopyThresh)
    ∧ ((∀ x, 0 ≤ x → x < 0 + TcpConn.kIOVCopyThresh →
        ((([⟨200, 300⟩] : List iovec).length = 1
            ∨ TcpConn.kIOVCopyThresh < sumLen [⟨200, 300⟩] →
            (TcpConn.ReadvFull 0 .fixed [⟨200, 300⟩]
              [ReadResp.bytes [1]] [] (fun a => a)).2 x = (fun a => a) x)
          ∧ (TcpConn.ReadvFull 0 .dynamic [⟨200, 300⟩]
              [ReadResp.bytes [1]] [] (fun a => a)).2 x = (fun a => a) x))
      ∧ ((([⟨200, 300⟩] : List iovec).length = 1
            ∨ TcpConn.kIOVCopyThresh < sumLen [⟨200, 300⟩] →
            (TcpConn.WritevFull 0 .fixed [⟨200, 300⟩]
              [WriteResp.acc 1] [] (fun a => a)).2.2 = (fun a => a))
          ∧ (TcpConn.WritevFull 0 .dynamic [⟨200, 300⟩]
              [WriteResp.acc 1] [] (fun a => a)).2.2 = (fun a => a))) :=
  ⟨by decide,
    scratch_buffer_frame 0 [⟨200, 300⟩] [ReadResp.bytes [1]] []
      [WriteResp.acc 1] [] (fun a => a) (by decide)⟩
